import Mathlib

/-!
Verification of the Conjecture engine specification for the `hypothesis`
repository.  The engine itself (execution cache, Pareto front, shrinker,
runner) is not present under `src/`; following the specification document
those components are modelled here from the spec's own words.  The strategy
combinators `just` / `none` / `nothing` are embedded directly from
`src/hypothesis-python/src/hypothesis/strategies/_internal/misc.py`.
-/

namespace Hypothesis

/-- Status of one test execution, ordered `Overrun < Invalid < Valid <
Interesting` (spec section 3). -/
inductive Status where
  | overrun
  | invalid
  | valid
  | interesting
deriving DecidableEq, Repr

/-- Modelled from the spec: the execution record of section 3 (the engine's
`ConjectureResult` is not under `src/`): buffer of consumed bytes, status,
interesting-origin (present only when Interesting), and named objective
observations. -/
structure Record where
  buffer : List Nat
  status : Status
  origin : Option Nat
  observations : List (String × Nat)
deriving DecidableEq, Repr

/-- Numeric rank of a status in the spec's order. -/
def statusRank : Status → Nat
  | .overrun => 0
  | .invalid => 1
  | .valid => 2
  | .interesting => 3

/-- Modelled from the spec: the execution cache `run_cached` of section 4.2
(the engine's `cached_test_function` is not under `src/`).  `lookupBuf` is
the exact byte-for-byte match of a buffer in the cache. -/
def lookupBuf : List (List Nat × Record) → List Nat → Option Record
  | [], _ => none
  | (k, r) :: rest, b => if k = b then some r else lookupBuf rest b

/-- Modelled from the spec: `run_cached(buffer) -> record` (section 4.2).
On a miss it replays exactly those bytes through the deterministic
executor `execute`, stores the result and returns it; on a hit it returns
the stored record without re-executing. -/
def run_cached (execute : List Nat → Record) (cache : List (List Nat × Record))
    (b : List Nat) : Record × List (List Nat × Record) :=
  match lookupBuf cache b with
  | some r => (r, cache)
  | none => (execute b, (b, execute b) :: cache)

theorem lookupBuf_run_cached (execute : List Nat → Record)
    (cache : List (List Nat × Record)) (b : List Nat) :
    lookupBuf (run_cached execute cache b).2 b = some (run_cached execute cache b).1 := by
  unfold run_cached
  cases h : lookupBuf cache b with
  | some r => simpa using h
  | none => simp [lookupBuf]

/-- Comparison of optional objective values, a missing key counting as
worst-possible (spec section 4.3). -/
def optLe : Option Nat → Option Nat → Bool
  | none, _ => true
  | some _, none => false
  | some x, some y => decide (x ≤ y)

/-- The objective value a record observes for a named key, if any. -/
def obsVal (r : Record) (k : String) : Option Nat :=
  r.observations.lookup k

/-- Modelled from the spec: classification comparison used by dominance
(spec section 3, the engine's `pareto.py` is not under `src/`):
`classAtLeast a b` means `a`'s classification is at least as good as `b`'s,
with distinct interesting origins treated as incomparable axes. -/
def classAtLeast (a b : Record) : Bool :=
  match b.status with
  | .interesting => decide (a.status = Status.interesting) && decide (a.origin = b.origin)
  | _ => decide (statusRank b.status ≤ statusRank a.status)

/-- Modelled from the spec: Pareto dominance (spec sections 3 and 4.3):
`dominates a b` holds when `a` is weakly greater-or-equal in every
objective key of either record (missing keys worst-possible) and at least
as good in classification. -/
def dominates (a b : Record) : Bool :=
  classAtLeast a b &&
    ((a.observations.map Prod.fst ++ b.observations.map Prod.fst).all
      fun k => optLe (obsVal b k) (obsVal a k))

/-- A record is eligible for the front only if Valid or Interesting. -/
def eligible (r : Record) : Bool :=
  decide (r.status = Status.valid) || decide (r.status = Status.interesting)

/-- Whether the candidate would be the first representative of its
interesting-origin in the front. -/
def firstOfOrigin (fr : List Record) (r : Record) : Bool :=
  match r.origin with
  | some o => !(fr.any fun m => decide (m.origin = some o))
  | none => false

/-- Modelled from the spec: `consider(record) -> inserted?` of section 4.3
(the engine's `ParetoFront.add` is not under `src/`).  Reject a candidate
an existing member weakly dominates unless it is the first representative
of its interesting-origin; on insertion remove every member the candidate
itself dominates. -/
def consider (fr : List Record) (r : Record) : Bool × List Record :=
  if eligible r = false then (false, fr)
  else if (fr.any fun m => dominates m r) && !(firstOfOrigin fr r) then (false, fr)
  else (true, r :: (fr.filter fun m => !(dominates r m)))

/-- Saving a buffer into the database's front sub-key (set semantics). -/
def dbSave (db : List (List Nat)) (b : List Nat) : List (List Nat) :=
  if b ∈ db then db else b :: db

/-- Deleting a buffer from the database's front sub-key. -/
def dbDelete (db : List (List Nat)) (b : List Nat) : List (List Nat) :=
  db.filter fun x => !(decide (x = b))

/-- Modelled from the spec: one front update together with its database
mirror (spec section 3: the front sub-key's value is a set of buffers
mirroring current front membership exactly, removals deleted, additions
saved; section 4.5: the Reuse phase re-confirms fetched buffers, deleting
those whose replay is no longer a front member). -/
def considerDB (st : List Record × List (List Nat)) (r : Record) :
    List Record × List (List Nat) :=
  let res := consider st.1 r
  if res.1 then
    let removed := st.1.filter fun m => dominates r m
    (res.2, dbSave (st.2.filter fun b => !(removed.any fun m => decide (m.buffer = b)))
      r.buffer)
  else if r ∈ st.1 then (res.2, st.2)
  else (res.2, dbDelete st.2 r.buffer)

/-- Modelled from the spec: the Generate phase of the runner (section 4.5,
the engine's `ConjectureRunner` is not under `src/`): execute each
generated buffer and feed the result to the front and its database
mirror, starting from an empty front and an empty front sub-key. -/
def runGenerate (execute : List Nat → Record) (bufs : List (List Nat)) :
    List Record × List (List Nat) :=
  bufs.foldl (fun st b => considerDB st (execute b)) ([], [])

/-- Modelled from the spec: a Reuse-only run (section 4.5): the database's
front sub-key is pre-seeded; every seeded buffer is replayed through the
cache and fed to the front, the mirror deleting seeds whose replay is not
retained. -/
def runReuse (execute : List Nat → Record) (seeds : List (List Nat)) :
    List Record × List (List Nat) :=
  seeds.foldl (fun st b => considerDB st (execute b)) ([], seeds)

/-- Modelled from the spec: the deterministic executor of the 16-origins
scenario (spec section 8; `test_pareto_front_contains_different_interesting_reasons`):
the predicate draws a 4-bit value (consuming one byte, masked to 4 bits)
and marks the run interesting with that value as origin; an empty byte
stream overruns. -/
def execute4 (b : List Nat) : Record :=
  match b with
  | [] => ⟨[], .overrun, none, []⟩
  | x :: _ => ⟨[x % 16], .interesting, some (x % 16), []⟩

/-- The deterministic pseudo-random byte streams of one 5000-example
generation budget: example `i` offers the byte `i % 256`. -/
def gen5000 : List (List Nat) := (List.range 5000).map fun i => [i % 256]

/-- Modelled from the spec: the deterministic executor of the
two-objective scenario (spec section 8;
`test_database_contains_only_pareto_front`): the predicate records
objective "1" from a 4-bit draw, draws 64 further bits, records objective
"2" from an 8-bit draw, and completes Valid; fewer than ten available
bytes overrun. -/
def execute2 (b : List Nat) : Record :=
  if b.length < 10 then ⟨b, .overrun, none, []⟩
  else ⟨b.take 10, .valid, none, [("1", b.headD 0 % 16), ("2", b.getD 9 0 % 256)]⟩

/-- The deterministic pseudo-random byte streams of one 500-example
generation budget for the two-objective scenario. -/
def gen500 : List (List Nat) :=
  (List.range 500).map fun i => [i % 4, 0, 0, 0, 0, 0, 0, 0, 0, 3 - i % 4]

/-- Modelled from the spec: the executor of the Reuse-phase scenario (spec
section 8; `test_clears_defunct_pareto_front`): the predicate draws two
bytes, ignores both drawn values, and marks the run interesting with the
single shared origin `0`; fewer than two bytes overrun. -/
def executeReuse (b : List Nat) : Record :=
  match b with
  | x :: y :: _ => ⟨[x % 256, y % 256], .interesting, some 0, []⟩
  | _ => ⟨b, .overrun, none, []⟩

/-- The 256 seeded buffers of the Reuse-phase scenario: they differ only
in their first byte, whose drawn value the predicate ignores. -/
def reuseSeeds : List (List Nat) := (List.range 256).map fun i => [i, 0]

/-- The single record every seed of the Reuse-phase scenario collapses to
in the front. -/
def reuseRec0 : Record := ⟨[0, 0], .interesting, some 0, []⟩

theorem foldl_const {α β : Type} (f : α → β → α) (st : α) :
    ∀ l : List β, (∀ b ∈ l, f st b = st) → l.foldl f st = st := by
  intro l
  induction l with
  | nil => intro _; rfl
  | cons a l ih =>
      intro h
      have ha := h a (List.mem_cons_self a l)
      simpa [List.foldl_cons, ha] using ih fun b hb => h b (List.mem_cons_of_mem a hb)

/-- The front and database state after the first sixteen generated
examples of the 16-origins scenario; the remaining 4984 examples leave it
unchanged. -/
def st16 : List Record × List (List Nat) :=
  runGenerate execute4 ((List.range 16).map fun i => [i % 256])

theorem execute4_mod (x : Nat) :
    execute4 [x % 256] = ⟨[x % 16], .interesting, some (x % 16), []⟩ := by
  show (⟨[x % 256 % 16], .interesting, some (x % 256 % 16), []⟩ : Record) = _
  rw [Nat.mod_mod_of_dvd x (by norm_num)]

theorem consider_st16_fix (x : Nat) :
    considerDB st16 (execute4 [x % 256]) = st16 := by
  rw [execute4_mod]
  have h : x % 16 < 16 := Nat.mod_lt x (by norm_num)
  generalize x % 16 = k at h ⊢
  interval_cases k <;> decide

theorem runGenerate_5000 : runGenerate execute4 gen5000 = st16 := by
  have hsplit : gen5000
      = ((List.range 16).map fun i => [i % 256])
        ++ ((List.range 4984).map fun j => [(16 + j) % 256]) := by
    unfold gen5000
    rw [show (5000 : Nat) = 16 + 4984 from rfl, List.range_add, List.map_append,
      List.map_map]
    rfl
  rw [hsplit]
  show List.foldl _ ([], []) _ = st16
  rw [List.foldl_append]
  have h1 : ((List.range 16).map fun i => [i % 256]).foldl
      (fun st b => considerDB st (execute4 b)) ([], []) = st16 := rfl
  rw [h1]
  refine foldl_const _ st16 _ ?_
  intro b hb
  simp only [List.mem_map, List.mem_range] at hb
  obtain ⟨j, _, rfl⟩ := hb
  exact consider_st16_fix (16 + j)

/-- An interesting origin has a representative in a front. -/
def originRepresented (o : Nat) (fr : List Record) : Prop :=
  ∃ m ∈ fr, m.status = Status.interesting ∧ m.origin = some o

theorem considerDB_fst (st : List Record × List (List Nat)) (r : Record) :
    (considerDB st r).1 = (consider st.1 r).2 := by
  unfold considerDB
  dsimp only
  split
  · rfl
  · split <;> rfl

theorem dominates_interesting {a b : Record} (hd : dominates a b = true)
    (hs : b.status = Status.interesting) :
    a.status = Status.interesting ∧ a.origin = b.origin := by
  have hcl : classAtLeast a b = true := by
    simp only [dominates, Bool.and_eq_true] at hd
    exact hd.1
  unfold classAtLeast at hcl
  rw [hs] at hcl
  simpa [Bool.and_eq_true, decide_eq_true_eq] using hcl

theorem originRepresented_persist {o : Nat} {fr : List Record} (r : Record)
    (h : originRepresented o fr) : originRepresented o (consider fr r).2 := by
  obtain ⟨m, hm, hms, hmo⟩ := h
  unfold consider
  split
  · exact ⟨m, hm, hms, hmo⟩
  · split
    · exact ⟨m, hm, hms, hmo⟩
    · by_cases hd : dominates r m = true
      · obtain ⟨hrs, hro⟩ := dominates_interesting hd hms
        exact ⟨r, List.mem_cons_self _ _, hrs, by rw [hro, hmo]⟩
      · refine ⟨m, List.mem_cons_of_mem r ?_, hms, hmo⟩
        rw [List.mem_filter]
        exact ⟨hm, by simp [Bool.eq_false_iff.2 hd]⟩

theorem originRepresented_new {o : Nat} {fr : List Record} {r : Record}
    (hs : r.status = Status.interesting) (ho : r.origin = some o) :
    originRepresented o (consider fr r).2 := by
  by_cases hrep : originRepresented o fr
  · exact originRepresented_persist r hrep
  · have hany : (fr.any fun m => dominates m r) = false := by
      rw [List.any_eq_false]
      intro m hm
      intro hd
      obtain ⟨hms, hmo⟩ := dominates_interesting hd hs
      exact hrep ⟨m, hm, hms, by rw [hmo, ho]⟩
    have helig : eligible r = true := by
      simp [eligible, hs]
    unfold consider
    rw [helig]
    simp only [hany, Bool.false_and]
    exact ⟨r, List.mem_cons_self _ _, hs, ho⟩

theorem originRepresented_fold (execute : List Nat → Record) :
    ∀ (bufs : List (List Nat)) (st : List Record × List (List Nat)) (o : Nat),
      (originRepresented o st.1 ∨
        ∃ b ∈ bufs, (execute b).status = Status.interesting ∧ (execute b).origin = some o) →
      originRepresented o
        (bufs.foldl (fun st b => considerDB st (execute b)) st).1 := by
  intro bufs
  induction bufs with
  | nil =>
      intro st o h
      rcases h with h | ⟨b, hb, _⟩
      · exact h
      · exact absurd hb (List.not_mem_nil b)
  | cons a l ih =>
      intro st o h
      rw [List.foldl_cons]
      refine ih (considerDB st (execute a)) o ?_
      rcases h with h | ⟨b, hb, hbs, hbo⟩
      · left
        rw [considerDB_fst]
        exact originRepresented_persist _ h
      · rcases List.mem_cons.1 hb with rfl | hbl
        · left
          rw [considerDB_fst]
          exact originRepresented_new hbs hbo
        · right
          exact ⟨b, hbl, hbs, hbo⟩

/-- C2: the final Pareto front contains at least one member for each
distinct interesting origin produced during the run; concretely, the
4-bit-origin predicate run with a 5000-example budget yields a front of
exactly 16 members. -/
theorem pareto_front_per_origin :
    (∀ (execute : List Nat → Record) (bufs : List (List Nat)) (o : Nat),
      (∃ b ∈ bufs, (execute b).status = Status.interesting ∧ (execute b).origin = some o) →
      ∃ m ∈ (runGenerate execute bufs).1,
        m.status = Status.interesting ∧ m.origin = some o) ∧
    (runGenerate execute4 gen5000).1.length = 16 := by
  constructor
  · intro execute bufs o h
    exact originRepresented_fold execute bufs ([], []) o (Or.inr h)
  · rw [runGenerate_5000]
    decide

/-- Witness for C2: within a one-example run producing interesting origin
3, the final front has a member with origin 3. -/
theorem pareto_front_per_origin_witness :
    ∃ m ∈ (runGenerate execute4 [[3]]).1,
      m.status = Status.interesting ∧ m.origin = some 3 :=
  pareto_front_per_origin.1 execute4 [[3]] 3
    ⟨[3], List.mem_singleton.2 rfl, by decide⟩

set_option maxRecDepth 4000 in
theorem reuse_first_step :
    considerDB ([], [0, 0] :: (List.range 255).map fun j => [j + 1, 0])
        (executeReuse [0, 0])
      = ([reuseRec0], [0, 0] :: (List.range 255).map fun j => [j + 1, 0]) := by
  decide

theorem reuse_step (j : Nat) (db : List (List Nat)) (h : j < 255) :
    considerDB ([reuseRec0], db) (executeReuse [j + 1, 0])
      = ([reuseRec0], dbDelete db [j + 1, 0]) := by
  have hmod : (j + 1) % 256 = j + 1 := Nat.mod_eq_of_lt (by omega)
  have hex : executeReuse [j + 1, 0]
      = ⟨[j + 1, 0], .interesting, some 0, []⟩ := by
    show (⟨[(j + 1) % 256, 0 % 256], .interesting, some 0, []⟩ : Record) = _
    rw [hmod]
  rw [hex]
  have hne : (⟨[j + 1, 0], .interesting, some 0, []⟩ : Record) ∉ [reuseRec0] := by
    simp [reuseRec0, Record.mk.injEq]
  have hc : consider [reuseRec0] (⟨[j + 1, 0], .interesting, some 0, []⟩ : Record)
      = (false, [reuseRec0]) := rfl
  unfold considerDB
  dsimp only
  rw [hc]
  dsimp only
  rw [if_neg (by exact Bool.false_ne_true), if_neg hne]

theorem reuse_tail_fold :
    ∀ (l : List Nat) (db : List (List Nat)), (∀ j ∈ l, j < 255) →
      l.foldl (fun st j => considerDB st (executeReuse [j + 1, 0])) ([reuseRec0], db)
        = ([reuseRec0], l.foldl (fun d j => dbDelete d [j + 1, 0]) db) := by
  intro l
  induction l with
  | nil => intro db _; rfl
  | cons a l ih =>
      intro db h
      rw [List.foldl_cons, reuse_step a db (h a (List.mem_cons_self a l)), List.foldl_cons]
      exact ih _ fun j hj => h j (List.mem_cons_of_mem a hj)

theorem foldl_dbDelete_reuse :
    ∀ (l : List Nat) (db : List (List Nat)),
      l.foldl (fun d j => dbDelete d [j + 1, 0]) db
        = db.filter fun x => !(l.any fun j => decide (x = [j + 1, 0])) := by
  intro l
  induction l with
  | nil =>
      intro db
      simp
  | cons a l ih =>
      intro db
      rw [List.foldl_cons, ih (dbDelete db [a + 1, 0])]
      unfold dbDelete
      rw [List.filter_filter]
      refine List.filter_congr ?_
      intro x _
      simp only [List.any_cons, Bool.not_or, Bool.and_comm]

theorem reuseSeeds_split :
    reuseSeeds = [0, 0] :: (List.range 255).map fun j => [j + 1, 0] := by
  unfold reuseSeeds
  rw [show (256 : Nat) = 255 + 1 from rfl, List.range_succ_eq_map, List.map_cons,
    List.map_map]
  rfl

set_option maxRecDepth 4000 in
theorem reuse_run_eval :
    runReuse executeReuse reuseSeeds = ([reuseRec0], [[0, 0]]) := by
  unfold runReuse
  rw [reuseSeeds_split, List.foldl_cons, reuse_first_step, List.foldl_map]
  rw [reuse_tail_fold _ _ fun j hj => List.mem_range.1 hj]
  rw [foldl_dbDelete_reuse]
  decide

set_option maxRecDepth 4000 in
/-- C4 counterexample: in the reuse-only scenario all 256 seeded buffers
(N = 256) still replay to an Interesting record under the current
predicate (so K = 256 remain interesting), yet the run ends with 1 entry,
not K entries, in the database's front sub-key. -/
theorem reuse_exactly_K_counterexample :
    (reuseSeeds.all fun b => decide ((executeReuse b).status = Status.interesting)) = true ∧
    reuseSeeds.length = 256 ∧
    (runReuse executeReuse reuseSeeds).2.length = 1 ∧
    ¬(runReuse executeReuse reuseSeeds).2.length = 256 := by
  refine ⟨by decide, by decide, ?_, ?_⟩
  · rw [reuse_run_eval]
    rfl
  · rw [reuse_run_eval]
    decide

theorem executeReuse_buf : ∀ b ∈ reuseSeeds, (executeReuse b).buffer = b := by
  intro b hb
  simp only [reuseSeeds, List.mem_map, List.mem_range] at hb
  obtain ⟨i, hi, rfl⟩ := hb
  show [i % 256, 0 % 256] = [i, 0]
  rw [Nat.mod_eq_of_lt hi]

theorem reuseSeeds_nodup : reuseSeeds.Nodup := by
  unfold reuseSeeds
  refine List.Nodup.map ?_ (List.nodup_range 256)
  intro i j hij
  simpa using hij

/-- The front and database state after the first four generated examples
of the two-objective scenario; the remaining 496 examples leave it
unchanged. -/
def st4 : List Record × List (List Nat) :=
  runGenerate execute2 ((List.range 4).map fun i => [i % 4, 0, 0, 0, 0, 0, 0, 0, 0, 3 - i % 4])

theorem execute2_mod (x : Nat) :
    execute2 [x % 4, 0, 0, 0, 0, 0, 0, 0, 0, 3 - x % 4]
      = ⟨[x % 4, 0, 0, 0, 0, 0, 0, 0, 0, 3 - x % 4], .valid, none,
          [("1", x % 4), ("2", 3 - x % 4)]⟩ := by
  have h4 : x % 4 < 4 := Nat.mod_lt x (by norm_num)
  unfold execute2
  rw [if_neg (by simp)]
  show (⟨[x % 4, 0, 0, 0, 0, 0, 0, 0, 0, 3 - x % 4], .valid, none,
      [("1", x % 4 % 16), ("2", (3 - x % 4) % 256)]⟩ : Record) = _
  rw [Nat.mod_eq_of_lt (show x % 4 < 16 by omega),
    Nat.mod_eq_of_lt (show 3 - x % 4 < 256 by omega)]

set_option maxRecDepth 2000 in
theorem consider_st4_fix (x : Nat) :
    considerDB st4 (execute2 [x % 4, 0, 0, 0, 0, 0, 0, 0, 0, 3 - x % 4]) = st4 := by
  rw [execute2_mod]
  have h : x % 4 < 4 := Nat.mod_lt x (by norm_num)
  generalize x % 4 = k at h ⊢
  interval_cases k <;> decide

theorem runGenerate_500 : runGenerate execute2 gen500 = st4 := by
  have hsplit : gen500
      = ((List.range 4).map fun i => [i % 4, 0, 0, 0, 0, 0, 0, 0, 0, 3 - i % 4])
        ++ ((List.range 496).map fun j =>
              [(4 + j) % 4, 0, 0, 0, 0, 0, 0, 0, 0, 3 - (4 + j) % 4]) := by
    unfold gen500
    rw [show (500 : Nat) = 4 + 496 from rfl, List.range_add, List.map_append,
      List.map_map]
    rfl
  rw [hsplit]
  show List.foldl _ ([], []) _ = st4
  rw [List.foldl_append]
  have h1 : ((List.range 4).map fun i => [i % 4, 0, 0, 0, 0, 0, 0, 0, 0, 3 - i % 4]).foldl
      (fun st b => considerDB st (execute2 b)) ([], []) = st4 := rfl
  rw [h1]
  refine foldl_const _ st4 _ ?_
  intro b hb
  simp only [List.mem_map, List.mem_range] at hb
  obtain ⟨j, _, rfl⟩ := hb
  exact consider_st4_fix (4 + j)

theorem consider_cases (fr : List Record) (r : Record) :
    consider fr r = (false, fr) ∨
    consider fr r = (true, r :: fr.filter fun m => !(dominates r m)) := by
  unfold consider
  split
  · exact Or.inl rfl
  · split
    · exact Or.inl rfl
    · exact Or.inr rfl

theorem considerDB_reject_mem {st : List Record × List (List Nat)} {r : Record}
    (h : consider st.1 r = (false, st.1)) (hm : r ∈ st.1) :
    considerDB st r = (st.1, st.2) := by
  unfold considerDB
  dsimp only
  rw [h]
  dsimp only
  rw [if_neg Bool.false_ne_true, if_pos hm]

theorem considerDB_reject_nonmem {st : List Record × List (List Nat)} {r : Record}
    (h : consider st.1 r = (false, st.1)) (hm : r ∉ st.1) :
    considerDB st r = (st.1, dbDelete st.2 r.buffer) := by
  unfold considerDB
  dsimp only
  rw [h]
  dsimp only
  rw [if_neg Bool.false_ne_true, if_neg hm]

theorem considerDB_insert {st : List Record × List (List Nat)} {r : Record}
    (h : consider st.1 r = (true, r :: st.1.filter fun m => !(dominates r m))) :
    considerDB st r
      = (r :: st.1.filter (fun m => !(dominates r m)),
          dbSave (st.2.filter fun b =>
            !((st.1.filter fun m => dominates r m).any fun m => decide (m.buffer = b)))
            r.buffer) := by
  unfold considerDB
  dsimp only
  rw [h]
  rfl

theorem mem_dbSave (db : List (List Nat)) (c a : List Nat) :
    a ∈ dbSave db c ↔ a = c ∨ a ∈ db := by
  unfold dbSave
  by_cases h : c ∈ db
  · rw [if_pos h]
    constructor
    · exact Or.inr
    · rintro (rfl | ha)
      · exact h
      · exact ha
  · rw [if_neg h]
    exact List.mem_cons

/-- The two-part invariant tying the database's front sub-key to the
in-memory front: the stored buffers are exactly the members' buffers, and
every member is the deterministic replay of its own buffer. -/
def frontInv (execute : List Nat → Record) (st : List Record × List (List Nat)) : Prop :=
  (∀ b, b ∈ st.2 ↔ ∃ m ∈ st.1, m.buffer = b) ∧
  (∀ m ∈ st.1, execute m.buffer = m)

theorem frontInv_step (execute : List Nat → Record)
    (st : List Record × List (List Nat)) (c : List Nat)
    (hrep : ∀ c, execute ((execute c).buffer) = execute c)
    (h : frontInv execute st) : frontInv execute (considerDB st (execute c)) := by
  obtain ⟨hmir, hdet⟩ := h
  set r := execute c with hrdef
  have hr : execute r.buffer = r := hrep c
  rcases consider_cases st.1 r with hc | hc
  · by_cases hm : r ∈ st.1
    · rw [considerDB_reject_mem hc hm]
      exact ⟨hmir, hdet⟩
    · rw [considerDB_reject_nonmem hc hm]
      constructor
      · intro b
        unfold dbDelete
        rw [List.mem_filter]
        constructor
        · rintro ⟨hb, _⟩
          exact (hmir b).1 hb
        · intro hex
          refine ⟨(hmir b).2 hex, ?_⟩
          obtain ⟨m, hmem, hmb⟩ := hex
          simp only [Bool.not_eq_eq_eq_not, Bool.not_true, decide_eq_false_iff_not]
          intro hbc
          apply hm
          have : m = r := by
            rw [← hdet m hmem, hmb, hbc, hr]
          rw [← this]
          exact hmem
      · exact hdet
  · rw [considerDB_insert hc]
    constructor
    · intro b
      rw [mem_dbSave, List.mem_filter]
      constructor
      · rintro (rfl | ⟨hb, hkeep⟩)
        · exact ⟨r, List.mem_cons_self _ _, rfl⟩
        · obtain ⟨m, hmem, hmb⟩ := (hmir b).1 hb
          refine ⟨m, List.mem_cons_of_mem r ?_, hmb⟩
          rw [List.mem_filter]
          refine ⟨hmem, ?_⟩
          have hk : ∀ m2 ∈ st.1, dominates r m2 = true → ¬m2.buffer = b := by
            simpa using hkeep
          have hdomf : dominates r m = false := by
            cases hx : dominates r m
            · rfl
            · exact absurd hmb (hk m hmem hx)
          rw [hdomf]
          rfl
      · rintro ⟨m, hmem, hmb⟩
        rcases List.mem_cons.1 hmem with rfl | hmem'
        · exact Or.inl hmb.symm
        · rw [List.mem_filter] at hmem'
          obtain ⟨hmem', hkeep⟩ := hmem'
          right
          refine ⟨(hmir b).2 ⟨m, hmem', hmb⟩, ?_⟩
          have : ∀ m2 ∈ st.1, dominates r m2 = true → ¬m2.buffer = b := by
            intro m2 hm2mem hm2dom hm2b
            have hmm : m2 = m := by
              rw [← hdet m2 hm2mem, ← hdet m hmem', hmb, hm2b]
            rw [hmm] at hm2dom
            rw [hm2dom] at hkeep
            simp at hkeep
          simpa using this
    · intro m hmem
      rcases List.mem_cons.1 hmem with rfl | hmem'
      · exact hr
      · rw [List.mem_filter] at hmem'
        exact hdet m hmem'.1

theorem frontInv_fold (execute : List Nat → Record)
    (hrep : ∀ c, execute ((execute c).buffer) = execute c) :
    ∀ (bufs : List (List Nat)) (st : List Record × List (List Nat)),
      frontInv execute st →
      frontInv execute (bufs.foldl (fun st b => considerDB st (execute b)) st) := by
  intro bufs
  induction bufs with
  | nil => intro st h; exact h
  | cons a l ih =>
      intro st h
      rw [List.foldl_cons]
      exact ih _ (frontInv_step execute st a hrep h)

theorem frontInv_runGenerate (execute : List Nat → Record)
    (hrep : ∀ c, execute ((execute c).buffer) = execute c)
    (bufs : List (List Nat)) : frontInv execute (runGenerate execute bufs) := by
  refine frontInv_fold execute hrep bufs ([], []) ?_
  constructor
  · intro b
    simp
  · intro m hm
    exact absurd hm (List.not_mem_nil m)

/-- C3: after a run, the set of buffers stored under the database's front
sub-key equals exactly the set of buffers of the final front members, and
replaying each saved buffer through the cache reproduces a front member;
concretely, in the 500-example two-objective scenario the saved buffer
count equals the in-memory front size. -/
theorem database_mirrors_front :
    (∀ (execute : List Nat → Record) (bufs : List (List Nat)),
      (∀ c, execute ((execute c).buffer) = execute c) →
      (∀ b, b ∈ (runGenerate execute bufs).2 ↔
        ∃ m ∈ (runGenerate execute bufs).1, m.buffer = b) ∧
      (∀ b ∈ (runGenerate execute bufs).2,
        ∃ m ∈ (runGenerate execute bufs).1, (run_cached execute [] b).1 = m)) ∧
    (runGenerate execute2 gen500).2.length = (runGenerate execute2 gen500).1.length := by
  constructor
  · intro execute bufs hrep
    obtain ⟨hmir, hdet⟩ := frontInv_runGenerate execute hrep bufs
    refine ⟨hmir, ?_⟩
    intro b hb
    obtain ⟨m, hmem, hmb⟩ := (hmir b).1 hb
    refine ⟨m, hmem, ?_⟩
    show execute b = m
    rw [← hmb]
    exact hdet m hmem
  · rw [runGenerate_500]
    decide

theorem execute4_replay (c : List Nat) :
    execute4 ((execute4 c).buffer) = execute4 c := by
  cases c with
  | nil => rfl
  | cons x l =>
      show execute4 [x % 16] = _
      show (⟨[x % 16 % 16], .interesting, some (x % 16 % 16), []⟩ : Record) = _
      rw [Nat.mod_mod_of_dvd x dvd_rfl]
      rfl

/-- Witness for C3: in a one-example run of the 16-origins scenario, the
saved buffer `[5]` is exactly mirrored by a front member's buffer. -/
theorem database_mirrors_front_witness :
    [5] ∈ (runGenerate execute4 [[5]]).2 ↔
      ∃ m ∈ (runGenerate execute4 [[5]]).1, m.buffer = [5] :=
  (database_mirrors_front.1 execute4 [[5]] execute4_replay).1 [5]

theorem consider_insert_eligible {fr : List Record} {r : Record} {l : List Record}
    (h : consider fr r = (true, l)) : eligible r = true := by
  unfold consider at h
  split at h
  · exact Bool.noConfusion (congrArg Prod.fst h)
  · next hne =>
      cases he : eligible r
      · exact absurd he hne
      · rfl

theorem mem_dbDelete (db : List (List Nat)) (c b : List Nat) :
    b ∈ dbDelete db c ↔ b ∈ db ∧ ¬b = c := by
  unfold dbDelete
  rw [List.mem_filter]
  simp

theorem mem_dbPrune (db : List (List Nat)) (removed : List Record) (b : List Nat) :
    (b ∈ db.filter fun x => !(removed.any fun m => decide (m.buffer = x))) ↔
      b ∈ db ∧ ∀ m ∈ removed, ¬m.buffer = b := by
  rw [List.mem_filter]
  simp

theorem dbSave_nodup (db : List (List Nat)) (b : List Nat) (h : db.Nodup) :
    (dbSave db b).Nodup := by
  unfold dbSave
  split
  · exact h
  · exact List.nodup_cons.2 ⟨by assumption, h⟩

/-- The invariant of the Reuse-phase fold: the database's front sub-key
holds exactly the front members' buffers plus the still-unprocessed
seeds; every member is the deterministic replay of its own buffer, is
eligible, is drawn from the seeds and is not among the unprocessed ones;
the database has no duplicates. -/
def reuseInv (execute : List Nat → Record) (seeds : List (List Nat))
    (st : List Record × List (List Nat)) (todo : List (List Nat)) : Prop :=
  (∀ b, b ∈ st.2 ↔ (∃ m ∈ st.1, m.buffer = b) ∨ b ∈ todo) ∧
  (∀ m ∈ st.1, execute m.buffer = m) ∧
  (∀ m ∈ st.1, m.buffer ∈ seeds ∧ eligible m = true ∧ m.buffer ∉ todo) ∧
  st.2.Nodup

theorem reuseInv_step (execute : List Nat → Record) (seeds : List (List Nat))
    (st : List Record × List (List Nat)) (a : List Nat) (todo : List (List Nat))
    (ha : a ∈ seeds) (hbufa : (execute a).buffer = a) (hatodo : a ∉ todo)
    (h : reuseInv execute seeds st (a :: todo)) :
    reuseInv execute seeds (considerDB st (execute a)) todo := by
  obtain ⟨hmir, hdet, hmem, hnd⟩ := h
  have hr : execute ((execute a).buffer) = execute a := by rw [hbufa]
  rcases consider_cases st.1 (execute a) with hc | hc
  · by_cases hm : execute a ∈ st.1
    · rw [considerDB_reject_mem hc hm]
      refine ⟨?_, hdet, ?_, hnd⟩
      · intro b
        rw [hmir b]
        constructor
        · rintro (hex | hab)
          · exact Or.inl hex
          · rcases List.mem_cons.1 hab with rfl | hb
            · exact Or.inl ⟨execute b, hm, hbufa⟩
            · exact Or.inr hb
        · rintro (hex | hb)
          · exact Or.inl hex
          · exact Or.inr (List.mem_cons_of_mem a hb)
      · intro m hm2
        obtain ⟨h1, h2, h3⟩ := hmem m hm2
        exact ⟨h1, h2, fun hx => h3 (List.mem_cons_of_mem a hx)⟩
    · rw [considerDB_reject_nonmem hc hm, hbufa]
      refine ⟨?_, hdet, ?_, List.Nodup.filter _ hnd⟩
      · intro b
        rw [mem_dbDelete, hmir b]
        constructor
        · rintro ⟨hex | hab, hne⟩
          · exact Or.inl hex
          · rcases List.mem_cons.1 hab with rfl | hb
            · exact absurd rfl hne
            · exact Or.inr hb
        · rintro (hex | hb)
          · refine ⟨Or.inl hex, ?_⟩
            obtain ⟨m, hm2, hmb⟩ := hex
            intro hba
            have hma : execute a = m := by
              rw [← hba, ← hmb]
              exact hdet m hm2
            exact hm (by rw [hma]; exact hm2)
          · exact ⟨Or.inr (List.mem_cons_of_mem a hb), fun hba => hatodo (hba ▸ hb)⟩
      · intro m hm2
        obtain ⟨h1, h2, h3⟩ := hmem m hm2
        exact ⟨h1, h2, fun hx => h3 (List.mem_cons_of_mem a hx)⟩
  · have helig : eligible (execute a) = true := consider_insert_eligible hc
    rw [considerDB_insert hc, hbufa]
    refine ⟨?_, ?_, ?_, ?_⟩
    · intro b
      rw [mem_dbSave, mem_dbPrune]
      constructor
      · rintro (rfl | ⟨hb, hkeep⟩)
        · exact Or.inl ⟨execute b, List.mem_cons_self _ _, hbufa⟩
        · rcases (hmir b).1 hb with hex | hab
          · obtain ⟨m, hm2, hmb⟩ := hex
            have hdomf : dominates (execute a) m = false := by
              cases hx : dominates (execute a) m
              · rfl
              · exact absurd hmb (hkeep m (List.mem_filter.2 ⟨hm2, hx⟩))
            refine Or.inl ⟨m, List.mem_cons_of_mem _ (List.mem_filter.2 ⟨hm2, ?_⟩), hmb⟩
            rw [hdomf]
            rfl
          · rcases List.mem_cons.1 hab with rfl | hb2
            · exact Or.inl ⟨execute b, List.mem_cons_self _ _, hbufa⟩
            · exact Or.inr hb2
      · rintro (hex | hb)
        · obtain ⟨m, hm2, hmb⟩ := hex
          rcases List.mem_cons.1 hm2 with rfl | hm3
          · exact Or.inl (hmb ▸ hbufa)
          · obtain ⟨hm4, hm5⟩ := List.mem_filter.1 hm3
            right
            refine ⟨(hmir b).2 (Or.inl ⟨m, hm4, hmb⟩), ?_⟩
            intro m2 hm6 hm2b
            obtain ⟨hm7, hm8⟩ := List.mem_filter.1 hm6
            have hmm : m2 = m := by
              rw [← hdet m2 hm7, ← hdet m hm4, hmb, hm2b]
            rw [hmm] at hm8
            rw [hm8] at hm5
            simp at hm5
        · right
          refine ⟨(hmir b).2 (Or.inr (List.mem_cons_of_mem a hb)), ?_⟩
          intro m2 hm6 hm2b
          obtain ⟨hm7, _⟩ := List.mem_filter.1 hm6
          obtain ⟨_, _, h3⟩ := hmem m2 hm7
          exact h3 (hm2b ▸ List.mem_cons_of_mem a hb)
    · intro m hm2
      rcases List.mem_cons.1 hm2 with rfl | hm3
      · exact hr
      · exact hdet m (List.mem_filter.1 hm3).1
    · intro m hm2
      rcases List.mem_cons.1 hm2 with rfl | hm3
      · exact ⟨by rw [hbufa]; exact ha, helig, by rw [hbufa]; exact hatodo⟩
      · obtain ⟨hm4, _⟩ := List.mem_filter.1 hm3
        obtain ⟨h1, h2, h3⟩ := hmem m hm4
        exact ⟨h1, h2, fun hx => h3 (List.mem_cons_of_mem a hx)⟩
    · exact dbSave_nodup _ _ (List.Nodup.filter _ hnd)

theorem reuseInv_fold (execute : List Nat → Record) (seeds : List (List Nat))
    (hbuf : ∀ b ∈ seeds, (execute b).buffer = b) :
    ∀ (todo : List (List Nat)) (st : List Record × List (List Nat)),
      (∀ b ∈ todo, b ∈ seeds) → todo.Nodup →
      reuseInv execute seeds st todo →
      reuseInv execute seeds
        (todo.foldl (fun st b => considerDB st (execute b)) st) [] := by
  intro todo
  induction todo with
  | nil => intro st _ _ h; exact h
  | cons a l ih =>
      intro st hsub hnd h
      rw [List.foldl_cons]
      obtain ⟨hal, hlnd⟩ := List.nodup_cons.1 hnd
      refine ih _ (fun b hb => hsub b (List.mem_cons_of_mem a hb)) hlnd ?_
      exact reuseInv_step execute seeds st a l (hsub a (List.mem_cons_self a l))
        (hbuf a (hsub a (List.mem_cons_self a l))) hal h

theorem reuse_run_inv (execute : List Nat → Record) (seeds : List (List Nat))
    (hbuf : ∀ b ∈ seeds, (execute b).buffer = b) (hnd : seeds.Nodup) :
    reuseInv execute seeds (runReuse execute seeds) [] := by
  refine reuseInv_fold execute seeds hbuf seeds ([], seeds) (fun b hb => hb) hnd ?_
  unfold reuseInv
  refine ⟨fun b => ?_, ?_, ?_, hnd⟩
  · constructor
    · exact fun hb => Or.inr hb
    · rintro (⟨m, hm, _⟩ | hb)
      · exact absurd hm (List.not_mem_nil m)
      · exact hb
  · intro m hm
    exact absurd hm (List.not_mem_nil m)
  · intro m hm
    exact absurd hm (List.not_mem_nil m)

/-- C4 (amended): a run executing only the Reuse phase against a database
pre-seeded with N buffers under one key (each seed replaying to a record
consuming exactly that buffer) ends with the database's front sub-key
equal to exactly the buffers of the surviving front members: defunct
seeds are cleared, every surviving entry is a seed whose replay is still
eligible (Valid or Interesting) — so at most K entries survive when only
K seeds still replay eligibly — and at least one member per distinct
interesting origin among the replays is retained; concretely, seeding
256 buffers that differ only in a byte the predicate ignores, all
sharing one interesting reason, leaves exactly 1 survivor in the front
and in the database. -/
theorem reuse_clears_defunct :
    (∀ (execute : List Nat → Record) (seeds : List (List Nat)),
      (∀ b ∈ seeds, (execute b).buffer = b) → seeds.Nodup →
      (∀ b, b ∈ (runReuse execute seeds).2 ↔
        ∃ m ∈ (runReuse execute seeds).1, m.buffer = b) ∧
      (∀ b ∈ (runReuse execute seeds).2,
        b ∈ seeds ∧ eligible (execute b) = true) ∧
      (runReuse execute seeds).2.length
        ≤ (seeds.filter fun b => eligible (execute b)).length ∧
      (∀ o : Nat,
        (∃ b ∈ seeds, (execute b).status = Status.interesting ∧
          (execute b).origin = some o) →
        ∃ m ∈ (runReuse execute seeds).1,
          m.status = Status.interesting ∧ m.origin = some o)) ∧
    ((runReuse executeReuse reuseSeeds).1.length = 1 ∧
     (runReuse executeReuse reuseSeeds).2 = [[0, 0]] ∧
     (runReuse executeReuse reuseSeeds).2
       = (runReuse executeReuse reuseSeeds).1.map Record.buffer) := by
  constructor
  · intro execute seeds hbuf hnd
    obtain ⟨hmir, hdet, hmem, hdbnd⟩ := reuse_run_inv execute seeds hbuf hnd
    have hmir' : ∀ b, b ∈ (runReuse execute seeds).2 ↔
        ∃ m ∈ (runReuse execute seeds).1, m.buffer = b := by
      intro b
      rw [hmir b]
      constructor
      · rintro (hex | hb)
        · exact hex
        · exact absurd hb (List.not_mem_nil b)
      · exact Or.inl
    have hent : ∀ b ∈ (runReuse execute seeds).2,
        b ∈ seeds ∧ eligible (execute b) = true := by
      intro b hb
      obtain ⟨m, hm2, hmb⟩ := (hmir' b).1 hb
      obtain ⟨h1, h2, _⟩ := hmem m hm2
      refine ⟨hmb ▸ h1, ?_⟩
      have hme : execute b = m := by
        rw [← hmb]
        exact hdet m hm2
      rw [hme]
      exact h2
    refine ⟨hmir', hent, ?_, ?_⟩
    · refine List.Subperm.length_le (List.Nodup.subperm hdbnd ?_)
      intro b hb
      obtain ⟨h1, h2⟩ := hent b hb
      exact List.mem_filter.2 ⟨h1, h2⟩
    · intro o hex
      exact originRepresented_fold execute seeds ([], seeds) o (Or.inr hex)
  · rw [reuse_run_eval]
    exact ⟨rfl, rfl, rfl⟩

/-- Witness for C4 (amended): in the concrete reuse-only scenario the
surviving database entries number at most the seeds whose replay is
still eligible. -/
theorem reuse_clears_defunct_witness :
    (runReuse executeReuse reuseSeeds).2.length
      ≤ (reuseSeeds.filter fun b => eligible (executeReuse b)).length :=
  ((reuse_clears_defunct.1 executeReuse reuseSeeds executeReuse_buf
      reuseSeeds_nodup).2.2).1

/-- Lexicographic comparison of byte sequences. -/
def lexLe : List Nat → List Nat → Bool
  | [], _ => true
  | _ :: _, [] => false
  | x :: xs, y :: ys => decide (x < y) || (decide (x = y) && lexLe xs ys)

/-- The governing shrink order (spec section 4.4): shorter buffers first,
then lexicographically smaller values. -/
def bufLE (a b : List Nat) : Bool :=
  decide (a.length < b.length) || (decide (a.length = b.length) && lexLe a b)

/-- Same classification (spec section 4.4): same status class and, for
Interesting, the same origin (a non-Interesting record's origin is `none`
on both sides). -/
def sameClass (a b : Record) : Bool :=
  decide (a.status = b.status) && decide (a.origin = b.origin)

theorem lexLe_refl : ∀ a : List Nat, lexLe a a = true := by
  intro a
  induction a with
  | nil => rfl
  | cons x xs ih => simp [lexLe, ih]

theorem lexLe_trans :
    ∀ {a b c : List Nat}, lexLe a b = true → lexLe b c = true → lexLe a c = true := by
  intro a
  induction a with
  | nil => intro b c _ _; rfl
  | cons x xs ih =>
      intro b c hab hbc
      cases b with
      | nil => exact absurd hab (by simp [lexLe])
      | cons y ys =>
          cases c with
          | nil => exact absurd hbc (by simp [lexLe])
          | cons z zs =>
              simp only [lexLe, Bool.or_eq_true, Bool.and_eq_true,
                decide_eq_true_eq] at hab hbc ⊢
              rcases hab with hab | ⟨hab, hab'⟩
              · rcases hbc with hbc | ⟨hbc, _⟩
                · exact Or.inl (by omega)
                · exact Or.inl (by omega)
              · rcases hbc with hbc | ⟨hbc, hbc'⟩
                · exact Or.inl (by omega)
                · exact Or.inr ⟨by omega, ih hab' hbc'⟩

theorem bufLE_refl (a : List Nat) : bufLE a a = true := by
  simp [bufLE, lexLe_refl]

theorem bufLE_trans {a b c : List Nat} (hab : bufLE a b = true)
    (hbc : bufLE b c = true) : bufLE a c = true := by
  simp only [bufLE, Bool.or_eq_true, Bool.and_eq_true, decide_eq_true_eq] at hab hbc ⊢
  rcases hab with hab | ⟨hab, hab'⟩
  · rcases hbc with hbc | ⟨hbc, _⟩
    · exact Or.inl (by omega)
    · exact Or.inl (by omega)
  · rcases hbc with hbc | ⟨hbc, hbc'⟩
    · exact Or.inl (by omega)
    · exact Or.inr ⟨by omega, lexLe_trans hab' hbc'⟩

theorem foldl_inv {α β : Type} (P : α → Prop) (f : α → β → α)
    (hf : ∀ a b, P a → P (f a b)) :
    ∀ (l : List β) (a : α), P a → P (l.foldl f a) := by
  intro l
  induction l with
  | nil => intro a h; exact h
  | cons x l ih =>
      intro a h
      rw [List.foldl_cons]
      exact ih _ (hf a x h)

/-- Modelled from the spec: one shrink pass (section 4.4, the engine's
`Shrinker` is not under `src/`): apply a fixed battery of reduction
transforms to the current best buffer, re-test every candidate through
the cache, and accept any candidate that reproduces the same
classification as the target and is no larger than the current best. -/
def shrinkPass (execute : List Nat → Record)
    (transforms : List (List Nat → List (List Nat)))
    (target : Record) (best : List Nat) : List Nat :=
  transforms.foldl
    (fun cur t => (t cur).foldl
      (fun cur2 c =>
        if sameClass (run_cached execute [] c).1 target && bufLE c cur2 then c else cur2)
      cur)
    best

/-- Modelled from the spec: the shrink loop (section 4.4): repeat passes
until a local fixed point (one full pass with no improvement), bounded by
an execution-count budget, yielding the best found so far on exhaustion. -/
def shrinkLoop (execute : List Nat → Record)
    (transforms : List (List Nat → List (List Nat)))
    (target : Record) : Nat → List Nat → List Nat
  | 0, best => best
  | fuel + 1, best =>
      let next := shrinkPass execute transforms target best
      if next = best then best else shrinkLoop execute transforms target fuel next

/-- Modelled from the spec: `shrink(record) -> record'` (section 4.4): the
smallest accepted buffer, replayed via the cache, as the result record. -/
def shrink (execute : List Nat → Record)
    (transforms : List (List Nat → List (List Nat))) (fuel : Nat) (r : Record) : Record :=
  (run_cached execute [] (shrinkLoop execute transforms r fuel r.buffer)).1

theorem shrinkPass_inv (execute : List Nat → Record)
    (transforms : List (List Nat → List (List Nat))) (r : Record) (best : List Nat)
    (h : sameClass (execute best) r = true ∧ bufLE best r.buffer = true) :
    sameClass (execute (shrinkPass execute transforms r best)) r = true ∧
      bufLE (shrinkPass execute transforms r best) r.buffer = true := by
  unfold shrinkPass
  refine foldl_inv
    (fun cur => sameClass (execute cur) r = true ∧ bufLE cur r.buffer = true)
    _ ?_ transforms best h
  intro cur t hcur
  refine foldl_inv
    (fun cur2 => sameClass (execute cur2) r = true ∧ bufLE cur2 r.buffer = true)
    _ ?_ (t cur) cur hcur
  intro cur2 c hcur2
  by_cases hcond :
      (sameClass (run_cached execute [] c).1 r && bufLE c cur2) = true
  · rw [if_pos hcond]
    rw [Bool.and_eq_true] at hcond
    exact ⟨hcond.1, bufLE_trans hcond.2 hcur2.2⟩
  · rw [if_neg hcond]
    exact hcur2

theorem shrinkLoop_inv (execute : List Nat → Record)
    (transforms : List (List Nat → List (List Nat))) (r : Record) :
    ∀ (fuel : Nat) (best : List Nat),
      (sameClass (execute best) r = true ∧ bufLE best r.buffer = true) →
      sameClass (execute (shrinkLoop execute transforms r fuel best)) r = true ∧
        bufLE (shrinkLoop execute transforms r fuel best) r.buffer = true := by
  intro fuel
  induction fuel with
  | zero => intro best h; exact h
  | succ n ih =>
      intro best h
      unfold shrinkLoop
      dsimp only
      split
      · exact h
      · exact ih _ (shrinkPass_inv execute transforms r best h)

/-- C5: for every interesting input record, `shrink` returns a record
whose buffer is no larger than the input's buffer under the governing
order (length first, then lexicographic value), and replaying the
returned buffer through the cache reproduces the same classification:
the same status class, and for Interesting the same origin. -/
theorem shrink_no_larger_same_class (execute : List Nat → Record)
    (transforms : List (List Nat → List (List Nat))) (fuel : Nat) (r : Record)
    (hself : sameClass (execute r.buffer) r = true)
    (hpre : ∀ b, bufLE (execute b).buffer b = true) :
    bufLE (shrink execute transforms fuel r).buffer r.buffer = true ∧
    (shrink execute transforms fuel r).status = r.status ∧
    (shrink execute transforms fuel r).origin = r.origin := by
  have hloop := shrinkLoop_inv execute transforms r fuel r.buffer
    ⟨hself, bufLE_refl r.buffer⟩
  have hshr : shrink execute transforms fuel r
      = execute (shrinkLoop execute transforms r fuel r.buffer) := rfl
  rw [hshr]
  obtain ⟨hsc, hle⟩ := hloop
  simp only [sameClass, Bool.and_eq_true, decide_eq_true_eq] at hsc
  exact ⟨bufLE_trans (hpre _) hle, hsc.1, hsc.2⟩

/-- A concrete executor for exercising the shrinker: any nonzero-headed
buffer is interesting with origin 7. -/
def executeShrinkW (b : List Nat) : Record :=
  match b with
  | [] => ⟨[], .overrun, none, []⟩
  | x :: _ => if x = 0 then ⟨[0], .valid, none, []⟩ else ⟨[x], .interesting, some 7, []⟩

/-- Concrete reduction transforms: delete the leading byte, zero all
bytes. -/
def shrinkTransformsW : List (List Nat → List (List Nat)) :=
  [fun b => [b.tail], fun b => [b.map fun _ => 0]]

theorem executeShrinkW_pre (b : List Nat) :
    bufLE (executeShrinkW b).buffer b = true := by
  cases b with
  | nil => rfl
  | cons x l =>
      show bufLE (if x = 0 then (⟨[0], .valid, none, []⟩ : Record)
        else ⟨[x], .interesting, some 7, []⟩).buffer (x :: l) = true
      by_cases hx : x = 0
      · rw [if_pos hx]
        cases l <;> simp [bufLE, lexLe, hx]
      · rw [if_neg hx]
        cases l <;> simp [bufLE, lexLe]

/-- Witness for C5: shrinking the interesting record with buffer `[5]`
returns a record no larger, with the same status and origin. -/
theorem shrink_no_larger_same_class_witness :
    bufLE (shrink executeShrinkW shrinkTransformsW 3
        ⟨[5], .interesting, some 7, []⟩).buffer [5] = true ∧
    (shrink executeShrinkW shrinkTransformsW 3
        ⟨[5], .interesting, some 7, []⟩).status = Status.interesting ∧
    (shrink executeShrinkW shrinkTransformsW 3
        ⟨[5], .interesting, some 7, []⟩).origin = some 7 :=
  shrink_no_larger_same_class executeShrinkW shrinkTransformsW 3
    ⟨[5], .interesting, some 7, []⟩ (by decide) executeShrinkW_pre

theorem run_cached_hit (execute : List Nat → Record)
    (cache : List (List Nat × Record)) (b : List Nat) (r : Record)
    (h : lookupBuf cache b = some r) :
    run_cached execute cache b = (r, cache) := by
  unfold run_cached
  rw [h]

/-- C1: for every buffer `b`, calling `run_cached b` twice yields records
with identical status and identical interesting-origin; the second call
returns the stored record and leaves the cache unchanged (no
re-execution), so replay of an identical buffer is deterministic. -/
theorem run_cached_deterministic (execute : List Nat → Record)
    (cache : List (List Nat × Record)) (b : List Nat) :
    (run_cached execute (run_cached execute cache b).2 b).1.status
        = (run_cached execute cache b).1.status ∧
    (run_cached execute (run_cached execute cache b).2 b).1.origin
        = (run_cached execute cache b).1.origin ∧
    (run_cached execute (run_cached execute cache b).2 b).1
        = (run_cached execute cache b).1 ∧
    (run_cached execute (run_cached execute cache b).2 b).2
        = (run_cached execute cache b).2 := by
  have h2 := run_cached_hit execute (run_cached execute cache b).2 b
    (run_cached execute cache b).1 (lookupBuf_run_cached execute cache b)
  rw [h2]
  exact ⟨rfl, rfl, rfl, rfl⟩

/-- Witness for C1: replaying buffer `[3]` twice through an initially
empty cache yields the same record and cache. -/
theorem run_cached_deterministic_witness :
    (run_cached execute4 (run_cached execute4 [] [3]).2 [3]).1.status
        = (run_cached execute4 [] [3]).1.status ∧
    (run_cached execute4 (run_cached execute4 [] [3]).2 [3]).1.origin
        = (run_cached execute4 [] [3]).1.origin ∧
    (run_cached execute4 (run_cached execute4 [] [3]).2 [3]).1
        = (run_cached execute4 [] [3]).1 ∧
    (run_cached execute4 (run_cached execute4 [] [3]).2 [3]).2
        = (run_cached execute4 [] [3]).2 :=
  run_cached_deterministic execute4 [] [3]

/-! ## Strategy combinators from `misc.py` -/

/-- A model of untyped Python values for strategy elements. -/
inductive PyVal where
  | none
  | int (n : Int)
  | str (s : String)
  | bool (b : Bool)
deriving DecidableEq, Repr

instance : Inhabited PyVal := ⟨PyVal.none⟩

/-- Modelled from the spec: the byte-stream data source (spec sections 3
and 4.1; the engine's `ConjectureData` is not under `src/`): consumed
buffer, stream position, outcome status and diagnostic events. -/
structure ConjectureData where
  buffer : List Nat
  index : Nat
  status : Status
  events : List String
deriving DecidableEq, Repr

/-- Modelled from the spec: `note_event(msg)` is a pure side effect with
no control transfer (spec section 4.1). -/
def note_event (d : ConjectureData) (msg : String) : ConjectureData :=
  { d with events := d.events ++ [msg] }

/-- Modelled from the spec: `mark_invalid()` sets status Invalid (spec
section 4.1); the accompanying unwinding is the `Option.none` draw result
in the protocol below. -/
def mark_invalid (d : ConjectureData) : ConjectureData :=
  { d with status := .invalid }

/-- An accumulated transformation of a sampled-from strategy: a mapping
or a filter condition. -/
inductive Transformation (α : Type) where
  | map (f : α → α)
  | filter (f : α → Bool)

/-- Modelled from the spec: `SampledFromStrategy._transform` of
`hypothesis/strategies/_internal/strategies.py` (not under `src/`; the
spec treats strategy combinators as external collaborators, section 1):
apply the strategy's accumulated transformations to an element in order;
a failed filter condition yields `filter_not_satisfied`, modelled as
`Option.none`. -/
def applyTransformations {α : Type} : List (Transformation α) → α → Option α
  | [], v => some v
  | .map f :: ts, v => applyTransformations ts (f v)
  | .filter f :: ts, v => if f v then applyTransformations ts v else none

/-- `JustStrategy` from `misc.py`: a strategy which always returns a
single fixed value, implemented as a length-one sampled-from strategy so
the filtering logic applies; drawing never touches the underlying choice
sequence. -/
structure JustStrategy (α : Type) where
  elements : List α
  transformations : List (Transformation α)

/-- `JustStrategy.value` from `misc.py`: the first (only) element. -/
def JustStrategy.value {α : Type} [Inhabited α] (s : JustStrategy α) : α :=
  s.elements.headD default

/-- The diagnostic event noted when the fixed value cannot satisfy the
accumulated filters (`misc.py`; the strategy's repr interpolation is
abstracted to a fixed text). -/
def abortMessage : String := "Aborted test because unable to satisfy the strategy"

/-- `JustStrategy.do_draw` from `misc.py`: transform the fixed value; if
the result is `filter_not_satisfied`, note a diagnostic event and mark
the data invalid (unwinding, modelled as an `Option.none` result);
otherwise return the transformed value, leaving the data untouched. -/
def JustStrategy.do_draw {α : Type} [Inhabited α] (s : JustStrategy α)
    (d : ConjectureData) : Option α × ConjectureData :=
  match applyTransformations s.transformations s.value with
  | Option.none => (Option.none, mark_invalid (note_event d abortMessage))
  | some v => (some v, d)

/-- `JustStrategy.do_filtered_draw` from `misc.py`: apply the
transformations together with the filter strategy's flat conditions; the
result (possibly `filter_not_satisfied`) is returned to the caller
without touching the data. -/
def JustStrategy.do_filtered_draw {α : Type} [Inhabited α] (s : JustStrategy α)
    (_d : ConjectureData) (flatConditions : List (α → Bool)) : Option α :=
  applyTransformations (s.transformations ++ flatConditions.map Transformation.filter)
    s.value

/-- `just(value)` from `misc.py`: a strategy which only generates
`value`. -/
def just {α : Type} (v : α) : JustStrategy α := ⟨[v], []⟩

/-- `none()` from `misc.py`: a strategy which only generates `None`. -/
def none : JustStrategy PyVal := just PyVal.none

/-- Repeated draws from a fixed-value strategy, threading the data
source. -/
def drawJustN {α : Type} [Inhabited α] (s : JustStrategy α) :
    Nat → ConjectureData → ConjectureData
  | 0, d => d
  | n + 1, d => drawJustN s n (s.do_draw d).2

/-- The strategy classes around `misc.py`: the always-empty `Nothing`
class, a `PyVal` fixed-value strategy, and the mapped / filtered /
flat-mapped wrappers produced by the generic `SearchStrategy` combinators
(the wrappers live in `strategies.py`, not under `src/`, and are modelled
from the spec's draw-protocol interface). -/
inductive SStrategy where
  | Nothing : SStrategy
  | Just (s : JustStrategy PyVal) : SStrategy
  | MappedStrategy (base : SStrategy) (f : PyVal → PyVal) : SStrategy
  | FilteredStrategy (base : SStrategy) (f : PyVal → Bool) : SStrategy
  | FlatMapStrategy (base : SStrategy) (f : PyVal → SStrategy) : SStrategy

/-- `map` from `misc.py`: `Nothing.map` returns `self`; for any other
strategy the generic combinator wraps it in a mapped strategy. -/
def SStrategy.map : SStrategy → (PyVal → PyVal) → SStrategy
  | .Nothing, _ => .Nothing
  | s, f => .MappedStrategy s f

/-- `filter` from `misc.py`: `Nothing.filter` returns `self`; for any
other strategy the generic combinator wraps it in a filtered strategy. -/
def SStrategy.filter : SStrategy → (PyVal → Bool) → SStrategy
  | .Nothing, _ => .Nothing
  | s, f => .FilteredStrategy s f

/-- `flatmap` from `misc.py`: `Nothing.flatmap` returns `self`; for any
other strategy the generic combinator wraps it in a flat-map strategy. -/
def SStrategy.flatmap : SStrategy → (PyVal → SStrategy) → SStrategy
  | .Nothing, _ => .Nothing
  | s, f => .FlatMapStrategy s f

/-- The `NOTHING` singleton from `misc.py`. -/
def NOTHING : SStrategy := SStrategy.Nothing

/-- `nothing()` from `misc.py`: a strategy that never successfully draws
a value and always rejects on an attempt to draw. -/
def nothing : SStrategy := NOTHING

/-- `is_empty`: `Nothing.calc_is_empty` returns true (`misc.py`); a
fixed-value strategy is never empty; the wrappers recur into their base
(modelled from the spec, `strategies.py` not being under `src/`). -/
def SStrategy.is_empty : SStrategy → Bool
  | .Nothing => true
  | .Just _ => false
  | .MappedStrategy b _ => b.is_empty
  | .FilteredStrategy b _ => b.is_empty
  | .FlatMapStrategy b _ => b.is_empty

/-- Modelled from the spec: the draw protocol of each strategy class
(spec section 6; `strategies.py` is not under `src/`): a fixed-value
strategy draws via `JustStrategy.do_draw`; wrappers draw from their base
and post-process; `Nothing.do_draw` is never called, because the draw
wrapper below rejects an empty strategy first (the comment in `misc.py`),
and is modelled as an unwinding draw. -/
def SStrategy.do_draw : SStrategy → ConjectureData → Option PyVal × ConjectureData
  | .Nothing, d => (Option.none, d)
  | .Just s, d => s.do_draw d
  | .MappedStrategy b f, d =>
      match b.do_draw d with
      | (Option.none, d2) => (Option.none, d2)
      | (some v, d2) => (some (f v), d2)
  | .FilteredStrategy b f, d =>
      match b.do_draw d with
      | (Option.none, d2) => (Option.none, d2)
      | (some v, d2) => if f v then (some v, d2) else (Option.none, mark_invalid d2)
  | .FlatMapStrategy b f, d =>
      match b.do_draw d with
      | (Option.none, d2) => (Option.none, d2)
      | (some v, d2) => (f v).do_draw d2

/-- Modelled from the spec: `data.draw(strategy)` (the comment in
`misc.py`: the caller marks the data invalid immediately when the
strategy is empty, so `Nothing.do_draw` is never reached; the wrapper
itself lives outside `src/`). -/
def draw (s : SStrategy) (d : ConjectureData) : Option PyVal × ConjectureData :=
  if s.is_empty then (Option.none, mark_invalid d)
  else s.do_draw d

/-- A user predicate as a program over the draw protocol: it finishes,
draws from a strategy and continues with the drawn value, or marks the
run invalid or interesting. -/
inductive Prog where
  | ret : Prog
  | drawThen (s : SStrategy) (k : PyVal → Prog) : Prog
  | invalidThen : Prog
  | interestingThen : Prog

/-- Modelled from the spec: one predicate execution (spec sections 4.1
and 6): draws thread the data source; a failed draw unwinds to the
execution frame, skipping the rest of the predicate. -/
def runProg : Prog → ConjectureData → ConjectureData
  | .ret, d => d
  | .drawThen s k, d =>
      match draw s d with
      | (Option.none, d2) => d2
      | (some v, d2) => runProg (k v) d2
  | .invalidThen, d => mark_invalid d
  | .interestingThen, d => { d with status := .interesting }

/-- A fresh data source with an empty stream. -/
def d0 : ConjectureData := ⟨[], 0, .valid, []⟩

/-- C6: a fixed-value (just) strategy never consumes a byte from the
underlying byte stream: the data source's buffer and stream position are
unchanged by drawing from it, regardless of how many draws are made. -/
theorem just_never_consumes {α : Type} [Inhabited α] (s : JustStrategy α)
    (n : Nat) (d : ConjectureData) :
    (drawJustN s n d).buffer = d.buffer ∧ (drawJustN s n d).index = d.index := by
  induction n generalizing d with
  | zero => exact ⟨rfl, rfl⟩
  | succ m ih =>
      have hstep : (s.do_draw d).2.buffer = d.buffer ∧
          (s.do_draw d).2.index = d.index := by
        unfold JustStrategy.do_draw
        cases applyTransformations s.transformations s.value
        · exact ⟨rfl, rfl⟩
        · exact ⟨rfl, rfl⟩
      show (drawJustN s m (s.do_draw d).2).buffer = d.buffer ∧
        (drawJustN s m (s.do_draw d).2).index = d.index
      obtain ⟨h1, h2⟩ := ih (s.do_draw d).2
      exact ⟨h1.trans hstep.1, h2.trans hstep.2⟩

/-- Witness for C6: five draws from `just 3` leave the data source's
buffer and stream position untouched. -/
theorem just_never_consumes_witness :
    (drawJustN (just (PyVal.int 3)) 5 d0).buffer = d0.buffer ∧
    (drawJustN (just (PyVal.int 3)) 5 d0).index = d0.index :=
  just_never_consumes (just (PyVal.int 3)) 5 d0

/-- C7: an execution whose next operation draws from the always-invalid
(nothing) strategy sets the record's status to Invalid at that first
draw and unwinds past the rest of the predicate, so the final status is
Invalid — never Valid or Interesting. -/
theorem nothing_draw_invalid (k : PyVal → Prog) (d : ConjectureData) :
    runProg (.drawThen nothing k) d = mark_invalid d ∧
    (runProg (.drawThen nothing k) d).status = Status.invalid ∧
    ¬(runProg (.drawThen nothing k) d).status = Status.valid ∧
    ¬(runProg (.drawThen nothing k) d).status = Status.interesting := by
  refine ⟨rfl, rfl, ?_, ?_⟩
  · show ¬(Status.invalid = Status.valid)
    decide
  · show ¬(Status.invalid = Status.interesting)
    decide

/-- Witness for C7: a predicate drawing from `nothing` on fresh data ends
with status Invalid. -/
theorem nothing_draw_invalid_witness :
    runProg (.drawThen nothing fun _ => Prog.ret) d0 = mark_invalid d0 ∧
    (runProg (.drawThen nothing fun _ => Prog.ret) d0).status = Status.invalid ∧
    ¬(runProg (.drawThen nothing fun _ => Prog.ret) d0).status = Status.valid ∧
    ¬(runProg (.drawThen nothing fun _ => Prog.ret) d0).status = Status.interesting :=
  nothing_draw_invalid (fun _ => Prog.ret) d0

/-- C8: the empty strategy is a fixed point of its combinators: for every
function, mapping, filtering or flat-mapping `NOTHING` returns the
`NOTHING` singleton unchanged. -/
theorem nothing_combinator_fixed_point (f : PyVal → PyVal) (g : PyVal → Bool)
    (h : PyVal → SStrategy) :
    NOTHING.map f = NOTHING ∧ NOTHING.filter g = NOTHING ∧
      NOTHING.flatmap h = NOTHING :=
  ⟨rfl, rfl, rfl⟩

/-- Witness for C8: concrete combinator applications on `NOTHING`. -/
theorem nothing_combinator_fixed_point_witness :
    NOTHING.map (fun v => v) = NOTHING ∧
    NOTHING.filter (fun _ => true) = NOTHING ∧
    NOTHING.flatmap (fun _ => NOTHING) = NOTHING :=
  nothing_combinator_fixed_point (fun v => v) (fun _ => true) (fun _ => NOTHING)

/-- C9: `JustStrategy.do_draw` marks the data invalid exactly when
applying the strategy's accumulated transformations to its fixed value
yields filter-not-satisfied, noting a diagnostic event first; otherwise
it returns the transformed fixed value and leaves the data — in
particular its status — untouched. -/
theorem just_do_draw_invalid_iff {α : Type} [Inhabited α] (s : JustStrategy α)
    (d : ConjectureData) (h : ¬d.status = Status.invalid) :
    ((s.do_draw d).2.status = Status.invalid ↔
      applyTransformations s.transformations s.value = Option.none) ∧
    (applyTransformations s.transformations s.value = Option.none →
      s.do_draw d = (Option.none, mark_invalid (note_event d abortMessage))) ∧
    (∀ v, applyTransformations s.transformations s.value = some v →
      s.do_draw d = (some v, d)) := by
  unfold JustStrategy.do_draw
  cases ht : applyTransformations s.transformations s.value
  · refine ⟨⟨fun _ => rfl, fun _ => rfl⟩, fun _ => rfl, ?_⟩
    intro v hv
    exact Option.noConfusion hv
  · case some v0 =>
      refine ⟨⟨fun hst => absurd hst h, fun hn => Option.noConfusion hn⟩,
        fun hn => Option.noConfusion hn, ?_⟩
      intro v hv
      rw [Option.some_inj.1 hv]

/-- A just strategy whose accumulated filter rejects its fixed value. -/
def justFailW : JustStrategy PyVal :=
  ⟨[PyVal.int 0], [Transformation.filter fun _ => false]⟩

/-- Witness for C9: drawing from a just strategy whose filter rejects its
fixed value marks fresh data invalid, after noting the event. -/
theorem just_do_draw_invalid_iff_witness :
    ((justFailW.do_draw d0).2.status = Status.invalid ↔
      applyTransformations justFailW.transformations justFailW.value = Option.none) ∧
    (applyTransformations justFailW.transformations justFailW.value = Option.none →
      justFailW.do_draw d0 = (Option.none, mark_invalid (note_event d0 abortMessage))) ∧
    (∀ v, applyTransformations justFailW.transformations justFailW.value = some v →
      justFailW.do_draw d0 = (some v, d0)) :=
  just_do_draw_invalid_iff justFailW d0 (by decide)

theorem filters_preserve_value {α : Type} :
    ∀ (ts : List (α → Bool)) (v r : α),
      applyTransformations (ts.map Transformation.filter) v = some r → r = v := by
  intro ts
  induction ts with
  | nil =>
      intro v r h
      exact (Option.some_inj.1 h).symm
  | cons t ts ih =>
      intro v r h
      simp only [List.map_cons] at h
      unfold applyTransformations at h
      by_cases htv : t v = true
      · rw [if_pos htv] at h
        exact ih v r h
      · rw [if_neg htv] at h
        exact Option.noConfusion h

/-- C10: `none()` is definitionally `just(None)`: it returns a
`JustStrategy` whose single element is `None`, and every successful draw
from it — plain or filtered — returns exactly `None`. -/
theorem none_is_just_none :
    Hypothesis.none = just PyVal.none ∧
    Hypothesis.none.value = PyVal.none ∧
    (∀ d : ConjectureData, Hypothesis.none.do_draw d = (some PyVal.none, d)) ∧
    (∀ (d : ConjectureData) (conds : List (PyVal → Bool)) (r : PyVal),
      Hypothesis.none.do_filtered_draw d conds = some r → r = PyVal.none) := by
  refine ⟨rfl, rfl, fun d => rfl, ?_⟩
  intro d conds r h
  unfold JustStrategy.do_filtered_draw at h
  rw [show Hypothesis.none.transformations ++ conds.map Transformation.filter
      = conds.map Transformation.filter from rfl] at h
  exact filters_preserve_value conds _ r h

/-- Witness for C10: a plain and a filtered draw from `none` both return
`None`. -/
theorem none_is_just_none_witness :
    Hypothesis.none.do_draw d0 = (some PyVal.none, d0) ∧ PyVal.none = PyVal.none :=
  ⟨none_is_just_none.2.2.1 d0,
    none_is_just_none.2.2.2 d0 [fun _ => true] PyVal.none rfl⟩

end Hypothesis
